import Mathlib

/-!
Verification of the liboqs NTT wrapper layer (`oqs_ntt_api.c`, the Go
bindings in `bindings/go/ntt`) and of the negacyclic number-theoretic
transforms they expose for two rings:

* Ring A (ML-DSA): modulus `q₁ = 8380417`, degree `n₁ = 256`, Montgomery
  constant `R = 2^32 mod q₁`;
* Ring B (Falcon): modulus `q₂ = 12289`, degrees `n₂ ∈ {512, 1024}`.

The transform kernels themselves (`pqcrystals_ml_dsa_*_ref_ntt`,
`pqcrystals_ml_dsa_*_ref_invntt_tomont`, `pqcrystals_ml_dsa_*_ref_montgomery_reduce`,
`pqcrystals_ml_dsa_*_ref_freeze`, `FALCON_CLEAN_mq_NTT`, `FALCON_CLEAN_mq_iNTT`)
are only declared `extern` in the repository slice at hand; they are modelled
here from the specification (a negacyclic NTT: evaluation of the input
polynomial at the odd powers of the ring's primitive `2n`-th root of unity,
and its inverse; the code presents evaluation-form buffers in bit-reversed
order, a fixed relabelling of the evaluation domain under which every
property proved below is invariant, so the model uses the natural order).
The wrapper layer (the `OQS_SIG_ml_dsa_*` functions of `oqs_ntt_api.c` and
the Go functions `MLDSA_NTT`, `MLDSA_InvNTT`, `MLDSA_InvNTT_ToMont`,
`Falcon_NTT`, `Falcon_InvNTT`) is translated directly from the source.

The file is organised as definitions first, then theorems.
-/

set_option maxRecDepth 4000

namespace NttSpec

/-! ## Definitions -/

/-! ### Generic negacyclic NTT core over a field

`nttFun n ψ` evaluates a length-`n` coefficient vector at the odd powers
`ψ^(2j+1)` of a `2n`-th root of unity `ψ`; `invNttFun n ψ` is the inverse
map (division by `n` folded in).  These are the mathematical contracts of
the forward and inverse transforms of spec §4.3/§4.4. -/

section CoreDefs

variable {F : Type} [Field F]

/-- Modelled from the spec: the forward transform of §4.3 converts a
coefficient vector into evaluation form; coefficient `j` of the result is
the value of the input polynomial at `ψ^(2j+1)`, the `j`-th odd power of
the ring's primitive `2n`-th root of unity. -/
def nttFun (n : ℕ) (ψ : F) (a : Fin n → F) : Fin n → F :=
  fun j => ∑ k : Fin n, a k * ψ ^ ((2 * (j : ℕ) + 1) * (k : ℕ))

/-- Modelled from the spec: the inverse transform of §4.4 (mathematical
content, before any output-scaling mode): the mirror evaluation using
inverse twiddle factors, followed by the final scaling by `n⁻¹ mod q`. -/
def invNttFun (n : ℕ) (ψ : F) (y : Fin n → F) : Fin n → F :=
  fun k => (n : F)⁻¹ * ∑ j : Fin n, y j * ψ⁻¹ ^ ((2 * (j : ℕ) + 1) * (k : ℕ))

/-- The negacyclic convolution (product in `F[X]/(X^n + 1)`) of two
coefficient vectors, written as the spec's §8 brute-force oracle: pairs of
indices summing to `k` contribute positively, pairs summing to `k + n`
(the wrap-around through `X^n = -1`) contribute negatively. -/
def negacyclicConv (n : ℕ) (a b : Fin n → F) : Fin n → F :=
  fun k => ∑ i : Fin n, ∑ j : Fin n,
    (if (i : ℕ) + (j : ℕ) = (k : ℕ) then a i * b j
     else if (i : ℕ) + (j : ℕ) = (k : ℕ) + n then -(a i * b j) else 0)

end CoreDefs

/-! ### Canonical-representative buffer view of a transform

The C API works on flat integer buffers.  `nttBuf`/`invNttBuf` are the
buffer-level forms of the two kernels: coefficients are read as residues
mod `q` and written back as canonical representatives in `[0, q)`. -/

/-- Buffer-level forward transform: canonical-representative view. -/
def nttBuf (q n : ℕ) [Fact (Nat.Prime q)] (ψ : ZMod q) (a : Fin n → ℤ) : Fin n → ℤ :=
  fun j => ((nttFun n ψ (fun k => ((a k : ℤ) : ZMod q)) j).val : ℕ)

/-- Buffer-level inverse transform: canonical-representative view. -/
def invNttBuf (q n : ℕ) [Fact (Nat.Prime q)] (ψ : ZMod q) (y : Fin n → ℤ) : Fin n → ℤ :=
  fun k => ((invNttFun n ψ (fun i => ((y i : ℤ) : ZMod q)) k).val : ℕ)

/-! ### Ring A: the ML-DSA ring `Z_8380417[X]/(X^256 + 1)`

Constants from `oqs_ntt_api.h` §"ML-DSA NTT Functions" and the reference
scheme: modulus `Q1`, primitive `512`-th root of unity `1753`, Montgomery
factor `R = 2^32 mod Q1`, and `QINV = Q1⁻¹ mod 2^32`. -/

def Q1 : ℕ := 8380417

instance : Fact (Nat.Prime Q1) := ⟨by unfold Q1; norm_num⟩

instance : NeZero Q1 := ⟨by unfold Q1; norm_num⟩

/-- The ML-DSA primitive `512`-th root of unity mod `Q1`. -/
def mldsaZeta : ZMod Q1 := 1753

/-- The ML-DSA Montgomery factor `R = 2^32 mod Q1` (spec §3, ring
descriptor for Ring A). -/
def mldsaR : ZMod Q1 := 2 ^ 32

/-- `Q1⁻¹ mod 2^32`, the constant of the divisionless Montgomery
reduction (spec §4.1). -/
def QINV : ℤ := 58728449

/-- Modelled from the spec: the shared ML-DSA reference forward NTT kernel
(the extern `pqcrystals_ml_dsa_{44,65,87}_ref_ntt`, not part of this slice;
`oqs_ntt_api.h` records that all three security levels share the same NTT
parameters).  It acts on residue classes; the wrappers below fix integer
representatives. -/
def mldsaNttKernel (a : Fin 256 → ZMod Q1) : Fin 256 → ZMod Q1 :=
  nttFun 256 mldsaZeta a

/-- Modelled from the spec §4.4: the Montgomery-scaled inverse kernel (the
extern `pqcrystals_ml_dsa_*_ref_invntt_tomont`): the inverse transform with
the final `n⁻¹` scaling folded into a Montgomery multiplication, so the
result carries an extra factor `R = 2^32`. -/
def mldsaInvNttTomontKernel (y : Fin 256 → ZMod Q1) : Fin 256 → ZMod Q1 :=
  fun k => mldsaR * invNttFun 256 mldsaZeta y k

/-- Modelled from the spec §4.1: the divisionless Montgomery reduction (the
extern `pqcrystals_ml_dsa_*_ref_montgomery_reduce`): `t` is the signed low
32 bits of `a·QINV`, and `(a - t·Q1) / 2^32` is an exact division whose
result is congruent to `a·R⁻¹ mod Q1`. -/
def montgomery_reduce (a : ℤ) : ℤ :=
  (a - (a * QINV).bmod (2 ^ 32) * (Q1 : ℤ)) / 2 ^ 32

/-- Modelled from the spec §4.1: the freeze operation (the extern
`pqcrystals_ml_dsa_*_ref_freeze`) on its use-site domain: it maps a signed
residue in `[-Q1, Q1)` into the canonical range `[0, Q1)` by one
conditional addition of `Q1`. -/
def freeze (a : ℤ) : ℤ := if a < 0 then a + (Q1 : ℤ) else a

/-! ### The ML-DSA wrappers of `oqs_ntt_api.c`

Each `OQS_SIG_ml_dsa_*` function below is translated from its C source;
the underlying `pqcrystals_*` kernels are the spec-modelled definitions
above.  Buffers are integer vectors; where the spec leaves the output
representative open (the forward transform and the Montgomery-scaled
inverse) the model uses the canonical representative — every property
proved below depends only on the residue classes of those outputs. -/

/-- `oqs_ntt_api.c` line 45: forward NTT wrapper, ML-DSA-44. -/
def OQS_SIG_ml_dsa_44_ref_ntt (a : Fin 256 → ℤ) : Fin 256 → ℤ :=
  fun j => ((mldsaNttKernel (fun k => ((a k : ℤ) : ZMod Q1)) j).val : ℕ)

/-- `oqs_ntt_api.c` line 49: Montgomery-scaled inverse NTT wrapper, ML-DSA-44. -/
def OQS_SIG_ml_dsa_44_ref_invntt_tomont (a : Fin 256 → ℤ) : Fin 256 → ℤ :=
  fun k => ((mldsaInvNttTomontKernel (fun i => ((a i : ℤ) : ZMod Q1)) k).val : ℕ)

/-- `oqs_ntt_api.c` lines 53-60: standard-mode inverse NTT wrapper,
ML-DSA-44 — the Montgomery-scaled inverse followed, per coefficient in
order, by one `montgomery_reduce` and one `freeze`. -/
def OQS_SIG_ml_dsa_44_ref_invntt (a : Fin 256 → ℤ) : Fin 256 → ℤ :=
  fun i => freeze (montgomery_reduce (OQS_SIG_ml_dsa_44_ref_invntt_tomont a i))

/-- `oqs_ntt_api.c` line 66: forward NTT wrapper, ML-DSA-65. -/
def OQS_SIG_ml_dsa_65_ref_ntt (a : Fin 256 → ℤ) : Fin 256 → ℤ :=
  fun j => ((mldsaNttKernel (fun k => ((a k : ℤ) : ZMod Q1)) j).val : ℕ)

/-- `oqs_ntt_api.c` line 70: Montgomery-scaled inverse NTT wrapper, ML-DSA-65. -/
def OQS_SIG_ml_dsa_65_ref_invntt_tomont (a : Fin 256 → ℤ) : Fin 256 → ℤ :=
  fun k => ((mldsaInvNttTomontKernel (fun i => ((a i : ℤ) : ZMod Q1)) k).val : ℕ)

/-- `oqs_ntt_api.c` lines 74-81: standard-mode inverse NTT wrapper, ML-DSA-65. -/
def OQS_SIG_ml_dsa_65_ref_invntt (a : Fin 256 → ℤ) : Fin 256 → ℤ :=
  fun i => freeze (montgomery_reduce (OQS_SIG_ml_dsa_65_ref_invntt_tomont a i))

/-- `oqs_ntt_api.c` line 87: forward NTT wrapper, ML-DSA-87. -/
def OQS_SIG_ml_dsa_87_ref_ntt (a : Fin 256 → ℤ) : Fin 256 → ℤ :=
  fun j => ((mldsaNttKernel (fun k => ((a k : ℤ) : ZMod Q1)) j).val : ℕ)

/-- `oqs_ntt_api.c` line 91: Montgomery-scaled inverse NTT wrapper, ML-DSA-87. -/
def OQS_SIG_ml_dsa_87_ref_invntt_tomont (a : Fin 256 → ℤ) : Fin 256 → ℤ :=
  fun k => ((mldsaInvNttTomontKernel (fun i => ((a i : ℤ) : ZMod Q1)) k).val : ℕ)

/-- `oqs_ntt_api.c` lines 95-102: standard-mode inverse NTT wrapper, ML-DSA-87. -/
def OQS_SIG_ml_dsa_87_ref_invntt (a : Fin 256 → ℤ) : Fin 256 → ℤ :=
  fun i => freeze (montgomery_reduce (OQS_SIG_ml_dsa_87_ref_invntt_tomont a i))

/-! ### Ring B: the Falcon rings `Z_12289[X]/(X^n + 1)`, `n ∈ {512, 1024}`

Constants from `oqs_ntt_api.h` §"Falcon NTT Functions": modulus `12289`,
`logn ∈ {9, 10}`.  The base root `7` is a primitive `2048`-th root of
unity mod `12289`; `falconPsi logn = 7 ^ 2^(10 - logn)` is then a
primitive `2^(logn+1)`-th root, as the twiddle generator of spec §4.2
requires for degree `n = 2^logn`. -/

def Q2 : ℕ := 12289

instance : Fact (Nat.Prime Q2) := ⟨by unfold Q2; norm_num⟩

instance : NeZero Q2 := ⟨by unfold Q2; norm_num⟩

/-- A primitive `2048`-th root of unity mod `Q2`. -/
def falconG : ZMod Q2 := 7

/-- The primitive `2n`-th root of unity used for degree `n = 2^logn`. -/
def falconPsi (logn : ℕ) : ZMod Q2 := falconG ^ 2 ^ (10 - logn)

/-- Modelled from the spec / `oqs_ntt_api.h` lines 117-127: the extern
`FALCON_CLEAN_mq_NTT` — in-place forward NTT over `Z_12289`, `uint16`
coefficients kept in the canonical range `[0, q₂)` (spec §4.1, Ring B);
`logn` selects the degree `n = 2^logn`. -/
def FALCON_CLEAN_mq_NTT (logn : ℕ) (a : Fin (2 ^ logn) → ℤ) : Fin (2 ^ logn) → ℤ :=
  nttBuf Q2 (2 ^ logn) (falconPsi logn) a

/-- Modelled from the spec / `oqs_ntt_api.h` lines 129-138: the extern
`FALCON_CLEAN_mq_iNTT` — in-place inverse NTT with final division by `n`,
producing canonical residues directly (spec §4.4, Ring B single mode). -/
def FALCON_CLEAN_mq_iNTT (logn : ℕ) (a : Fin (2 ^ logn) → ℤ) : Fin (2 ^ logn) → ℤ :=
  invNttBuf Q2 (2 ^ logn) (falconPsi logn) a

/-- List form of `FALCON_CLEAN_mq_NTT`, used by the Go binding model. -/
def falconNttList (logn : ℕ) (p : List ℤ) : List ℤ :=
  List.ofFn fun j : Fin (2 ^ logn) =>
    FALCON_CLEAN_mq_NTT logn (fun k => p.getD (k : ℕ) 0) j

/-- List form of `FALCON_CLEAN_mq_iNTT`, used by the Go binding model. -/
def falconInvNttList (logn : ℕ) (p : List ℤ) : List ℤ :=
  List.ofFn fun j : Fin (2 ^ logn) =>
    FALCON_CLEAN_mq_iNTT logn (fun k => p.getD (k : ℕ) 0) j

/-! ### The Go binding layer (`bindings/go/ntt/ntt.go`)

Each function mirrors its Go source: a nil pointer is `none`; the result
is the pair (returned error, buffer state after the call).  The Go
`MLDSALevel` constants are `MLDSA44 = 0`, `MLDSA65 = 1`, `MLDSA87 = 2`
(`iota`), and `Falcon512LogN = 9`, `Falcon1024LogN = 10`. -/

/-- Go `MLDSA_NTT`: nil check, then `switch level`; the default branch
reports an invalid security level without touching the buffer. -/
def MLDSA_NTT (poly : Option (Fin 256 → ℤ)) (level : ℤ) :
    Option String × Option (Fin 256 → ℤ) :=
  match poly with
  | none => (some "nil polynomial", none)
  | some p =>
    if level = 0 then (none, some (OQS_SIG_ml_dsa_44_ref_ntt p))
    else if level = 1 then (none, some (OQS_SIG_ml_dsa_65_ref_ntt p))
    else if level = 2 then (none, some (OQS_SIG_ml_dsa_87_ref_ntt p))
    else (some "invalid ML-DSA security level", some p)

/-- Go `MLDSA_InvNTT_ToMont`: same validation pattern, Montgomery-scaled
inverse. -/
def MLDSA_InvNTT_ToMont (poly : Option (Fin 256 → ℤ)) (level : ℤ) :
    Option String × Option (Fin 256 → ℤ) :=
  match poly with
  | none => (some "nil polynomial", none)
  | some p =>
    if level = 0 then (none, some (OQS_SIG_ml_dsa_44_ref_invntt_tomont p))
    else if level = 1 then (none, some (OQS_SIG_ml_dsa_65_ref_invntt_tomont p))
    else if level = 2 then (none, some (OQS_SIG_ml_dsa_87_ref_invntt_tomont p))
    else (some "invalid ML-DSA security level", some p)

/-- Go `MLDSA_InvNTT`: same validation pattern, standard-form inverse. -/
def MLDSA_InvNTT (poly : Option (Fin 256 → ℤ)) (level : ℤ) :
    Option String × Option (Fin 256 → ℤ) :=
  match poly with
  | none => (some "nil polynomial", none)
  | some p =>
    if level = 0 then (none, some (OQS_SIG_ml_dsa_44_ref_invntt p))
    else if level = 1 then (none, some (OQS_SIG_ml_dsa_65_ref_invntt p))
    else if level = 2 then (none, some (OQS_SIG_ml_dsa_87_ref_invntt p))
    else (some "invalid ML-DSA security level", some p)

/-- Go's `expectedLen := 1 << logn`: the shift is computed in a signed
64-bit `int`, so the result is the two's-complement value of
`2^logn mod 2^64` — `2^logn` itself for `logn ≤ 62`, `-2^63` at
`logn = 63`, and `0` for every `logn ≥ 64`. -/
def goExpectedLen (logn : ℕ) : ℤ := Int.bmod (2 ^ logn) (2 ^ 64)

/-- Go `Falcon_NTT` (ntt.go lines 374-392): nil check first, then slice
length against `expectedLen := 1 << logn` (a wrapping 64-bit `int`, see
`goExpectedLen`), then `logn != 9 && logn != 10`; only then the C
transform runs. -/
def Falcon_NTT (poly : Option (List ℤ)) (logn : ℕ) :
    Option String × Option (List ℤ) :=
  match poly with
  | none => (some "nil polynomial", none)
  | some p =>
    if (p.length : ℤ) ≠ goExpectedLen logn then
      (some "polynomial length mismatch", some p)
    else if logn ≠ 9 ∧ logn ≠ 10 then
      (some "invalid logn: must be 9 (Falcon-512) or 10 (Falcon-1024)", some p)
    else (none, some (falconNttList logn p))

/-- Go `Falcon_InvNTT` (ntt.go lines 404-422): identical validation order,
inverse transform. -/
def Falcon_InvNTT (poly : Option (List ℤ)) (logn : ℕ) :
    Option String × Option (List ℤ) :=
  match poly with
  | none => (some "nil polynomial", none)
  | some p =>
    if (p.length : ℤ) ≠ goExpectedLen logn then
      (some "polynomial length mismatch", some p)
    else if logn ≠ 9 ∧ logn ≠ 10 then
      (some "invalid logn: must be 9 (Falcon-512) or 10 (Falcon-1024)", some p)
    else (none, some (falconInvNttList logn p))

/-! ## Theorems -/

/-! ### Core algebraic facts -/

section CoreThms

variable {F : Type} [Field F] [DecidableEq F]

/-- Summing all `n`-th powers of an `n`-th root of unity gives `n` at `1`
and `0` elsewhere: the orthogonality kernel of the transform pair. -/
lemma sum_pow_fin (n : ℕ) (x : F) (hx : x ^ n = 1) :
    ∑ j : Fin n, x ^ (j : ℕ) = if x = 1 then (n : F) else 0 := by
  rcases eq_or_ne x 1 with h | h
  · simp [h]
  · rw [if_neg h, Fin.sum_univ_eq_sum_range, geom_sum_eq h, hx]
    simp

/-- For `ψ` with `ψ^(2^e) = -1` in a field where `-1 ≠ 1`, the powers
`(ψ^2)^c` for `c < 2^e` are pairwise distinct (`ψ^2` has exact order
`2^e`).  Auxiliary, one-sided version. -/
lemma pow_two_sq_inj_aux (e : ℕ) (he : 1 ≤ e) (ψ : F)
    (hψ : ψ ^ 2 ^ e = -1) (hF : (-1 : F) ≠ 1)
    {c d : ℕ} (hd : d < 2 ^ e) (hcd : c ≤ d)
    (h : (ψ ^ 2) ^ c = (ψ ^ 2) ^ d) : c = d := by
  by_contra hne
  have hψ0 : ψ ≠ 0 := by
    intro h0
    rw [h0, zero_pow (pow_pos (by norm_num : (0 : ℕ) < 2) e).ne'] at hψ
    exact one_ne_zero (by linear_combination hψ)
  have hω0 : (ψ ^ 2) ≠ 0 := pow_ne_zero 2 hψ0
  have hm : 0 < d - c := Nat.sub_pos_of_lt (lt_of_le_of_ne hcd hne)
  have hmlt : d - c < 2 ^ e := lt_of_le_of_lt (Nat.sub_le d c) hd
  have h1 : (ψ ^ 2) ^ (d - c) = 1 := by
    have hsplit : (ψ ^ 2) ^ d = (ψ ^ 2) ^ c * (ψ ^ 2) ^ (d - c) := by
      rw [← pow_add, Nat.add_sub_cancel' hcd]
    rw [hsplit] at h
    have h' : (ψ ^ 2) ^ c * 1 = (ψ ^ 2) ^ c * (ψ ^ 2) ^ (d - c) := by
      rw [mul_one]; exact h
    exact (mul_left_cancel₀ (pow_ne_zero c hω0) h').symm
  have hord1 : orderOf (ψ ^ 2) ∣ d - c := orderOf_dvd_of_pow_eq_one h1
  have hord2 : orderOf (ψ ^ 2) ∣ 2 ^ e := by
    apply orderOf_dvd_of_pow_eq_one
    have hsq : (ψ ^ 2) ^ 2 ^ e = (ψ ^ 2 ^ e) ^ 2 := by
      rw [← pow_mul, ← pow_mul, mul_comm]
    rw [hsq, hψ]
    exact neg_one_sq
  obtain ⟨i, hie, hi⟩ := (Nat.dvd_prime_pow Nat.prime_two).mp hord2
  have hile : i ≤ e - 1 := by
    by_contra hgt
    push_neg at hgt
    have hieq : i = e := by omega
    have hle2 : orderOf (ψ ^ 2) ≤ d - c := Nat.le_of_dvd hm hord1
    rw [hi, hieq] at hle2
    have hstrict : 2 ^ e ≤ d - c := hle2
    omega
  have hdvd : orderOf (ψ ^ 2) ∣ 2 ^ (e - 1) := by
    rw [hi]
    exact pow_dvd_pow 2 hile
  have hhalf : (ψ ^ 2) ^ 2 ^ (e - 1) = 1 := orderOf_dvd_iff_pow_eq_one.mp hdvd
  have hexp : 2 * 2 ^ (e - 1) = 2 ^ e := by
    rw [mul_comm, ← pow_succ]
    congr 1
    omega
  have hone : ψ ^ 2 ^ e = 1 := by
    rw [← hexp, pow_mul]
    exact hhalf
  rw [hψ] at hone
  exact hF hone

/-- Two-sided version of `pow_two_sq_inj_aux`. -/
lemma pow_two_sq_inj (e : ℕ) (he : 1 ≤ e) (ψ : F)
    (hψ : ψ ^ 2 ^ e = -1) (hF : (-1 : F) ≠ 1)
    {c d : ℕ} (hc : c < 2 ^ e) (hd : d < 2 ^ e)
    (h : (ψ ^ 2) ^ c = (ψ ^ 2) ^ d) : c = d := by
  rcases le_total c d with hle | hle
  · exact pow_two_sq_inj_aux e he ψ hψ hF hd hle h
  · exact (pow_two_sq_inj_aux e he ψ hψ hF hc hle h.symm).symm

/-- Inverse-after-forward roundtrip: for `ψ` a primitive `2n`-th root of
unity (`ψ^n = -1` and the powers of `ψ^2` pairwise distinct below `n`) and
`n` invertible, the inverse transform undoes the forward transform. -/
theorem invNtt_ntt (n : ℕ) (ψ : F) (hψ : ψ ^ n = -1)
    (hinj : ∀ c d : ℕ, c < n → d < n → (ψ ^ 2) ^ c = (ψ ^ 2) ^ d → c = d)
    (hn : (n : F) ≠ 0) (a : Fin n → F) :
    invNttFun n ψ (nttFun n ψ a) = a := by
  have hn0 : n ≠ 0 := by
    rintro rfl
    exact hn (by norm_num)
  have hψ0 : ψ ≠ 0 := by
    intro h0
    rw [h0, zero_pow hn0] at hψ
    exact one_ne_zero (by linear_combination hψ)
  funext k
  simp only [invNttFun, nttFun]
  have key : ∀ t : ℕ, (ψ ^ (2 * t)) ^ n = 1 := by
    intro t
    rw [← pow_mul, mul_comm (2 * t) n, pow_mul, hψ, pow_mul, neg_one_sq, one_pow]
  have step1 : ∀ j : Fin n,
      (∑ m : Fin n, a m * ψ ^ ((2 * (j : ℕ) + 1) * (m : ℕ))) *
          ψ⁻¹ ^ ((2 * (j : ℕ) + 1) * (k : ℕ)) =
        ∑ m : Fin n, (a m * (ψ ^ (m : ℕ) * ψ⁻¹ ^ (k : ℕ))) *
          ((ψ ^ (2 * (m : ℕ)) * ψ⁻¹ ^ (2 * (k : ℕ))) ^ (j : ℕ)) := by
    intro j
    rw [Finset.sum_mul]
    refine Finset.sum_congr rfl fun m _ => ?_
    have e1 : (2 * (j : ℕ) + 1) * (m : ℕ) = (m : ℕ) + 2 * (m : ℕ) * (j : ℕ) := by
      ring
    have e2 : (2 * (j : ℕ) + 1) * (k : ℕ) = (k : ℕ) + 2 * (k : ℕ) * (j : ℕ) := by
      ring
    rw [e1, e2, pow_add, pow_add, pow_mul, pow_mul]
    ring
  rw [Finset.sum_congr rfl fun j _ => step1 j, Finset.sum_comm]
  have step2 : ∀ m : Fin n,
      (∑ j : Fin n, (a m * (ψ ^ (m : ℕ) * ψ⁻¹ ^ (k : ℕ))) *
          ((ψ ^ (2 * (m : ℕ)) * ψ⁻¹ ^ (2 * (k : ℕ))) ^ (j : ℕ))) =
        (a m * (ψ ^ (m : ℕ) * ψ⁻¹ ^ (k : ℕ))) *
          (if (ψ ^ (2 * (m : ℕ)) * ψ⁻¹ ^ (2 * (k : ℕ))) = 1 then (n : F) else 0) := by
    intro m
    rw [← Finset.mul_sum]
    congr 1
    apply sum_pow_fin
    rw [mul_pow, key, inv_pow, inv_pow, key, inv_one, mul_one]
  rw [Finset.sum_congr rfl fun m _ => step2 m]
  rw [Finset.sum_eq_single k
      (fun m _ hm => by
        have hcond : ¬ (ψ ^ (2 * (m : ℕ)) * ψ⁻¹ ^ (2 * (k : ℕ)) = 1) := by
          intro hx
          apply hm
          rw [inv_pow] at hx
          have hpp : ψ ^ (2 * (m : ℕ)) = ψ ^ (2 * (k : ℕ)) :=
            (mul_inv_eq_one₀ (pow_ne_zero _ hψ0)).mp hx
          rw [pow_mul, pow_mul] at hpp
          exact Fin.ext (hinj (m : ℕ) (k : ℕ) m.isLt k.isLt hpp)
        rw [if_neg hcond, mul_zero])
      (fun hk => absurd (Finset.mem_univ k) hk)]
  have hck : ψ ^ (k : ℕ) * ψ⁻¹ ^ (k : ℕ) = 1 := by
    rw [inv_pow, mul_inv_cancel₀ (pow_ne_zero _ hψ0)]
  have hxk : ψ ^ (2 * (k : ℕ)) * ψ⁻¹ ^ (2 * (k : ℕ)) = 1 := by
    rw [inv_pow, mul_inv_cancel₀ (pow_ne_zero _ hψ0)]
  rw [hck, hxk, if_pos rfl, mul_one]
  calc (n : F)⁻¹ * (a k * (n : F)) = a k * ((n : F)⁻¹ * (n : F)) := by ring
    _ = a k := by rw [inv_mul_cancel₀ hn, mul_one]

/-- Forward-after-inverse roundtrip: the forward transform undoes the
inverse transform (the transform pair is a bijection in both directions). -/
theorem ntt_invNtt (n : ℕ) (ψ : F) (hψ : ψ ^ n = -1)
    (hinj : ∀ c d : ℕ, c < n → d < n → (ψ ^ 2) ^ c = (ψ ^ 2) ^ d → c = d)
    (hn : (n : F) ≠ 0) (y : Fin n → F) :
    nttFun n ψ (invNttFun n ψ y) = y := by
  have hn0 : n ≠ 0 := by
    rintro rfl
    exact hn (by norm_num)
  have hψ0 : ψ ≠ 0 := by
    intro h0
    rw [h0, zero_pow hn0] at hψ
    exact one_ne_zero (by linear_combination hψ)
  have hoddpow : ∀ t : ℕ, (ψ ^ (2 * t + 1)) ^ n = -1 := by
    intro t
    rw [← pow_mul, mul_comm (2 * t + 1) n, pow_mul, hψ]
    exact Odd.neg_one_pow ⟨t, rfl⟩
  funext j
  simp only [nttFun, invNttFun]
  have step1 : ∀ k : Fin n,
      ((n : F)⁻¹ * ∑ i : Fin n, y i * ψ⁻¹ ^ ((2 * (i : ℕ) + 1) * (k : ℕ))) *
          ψ ^ ((2 * (j : ℕ) + 1) * (k : ℕ)) =
        (n : F)⁻¹ * ∑ i : Fin n,
          y i * ((ψ ^ (2 * (j : ℕ) + 1) * ψ⁻¹ ^ (2 * (i : ℕ) + 1)) ^ (k : ℕ)) := by
    intro k
    rw [mul_assoc, Finset.sum_mul]
    congr 1
    refine Finset.sum_congr rfl fun i _ => ?_
    rw [pow_mul, pow_mul, mul_pow]
    ring
  rw [Finset.sum_congr rfl fun k _ => step1 k, ← Finset.mul_sum, Finset.sum_comm]
  have step2 : ∀ i : Fin n,
      (∑ k : Fin n,
          y i * ((ψ ^ (2 * (j : ℕ) + 1) * ψ⁻¹ ^ (2 * (i : ℕ) + 1)) ^ (k : ℕ))) =
        y i * (if (ψ ^ (2 * (j : ℕ) + 1) * ψ⁻¹ ^ (2 * (i : ℕ) + 1)) = 1
          then (n : F) else 0) := by
    intro i
    rw [← Finset.mul_sum]
    congr 1
    apply sum_pow_fin
    rw [mul_pow, hoddpow, inv_pow, inv_pow, hoddpow]
    simp
  rw [Finset.sum_congr rfl fun i _ => step2 i]
  rw [Finset.sum_eq_single j
      (fun i _ hi => by
        have hcond : ¬ (ψ ^ (2 * (j : ℕ) + 1) * ψ⁻¹ ^ (2 * (i : ℕ) + 1) = 1) := by
          intro hx
          apply hi
          rw [inv_pow] at hx
          have hpp : ψ ^ (2 * (j : ℕ) + 1) = ψ ^ (2 * (i : ℕ) + 1) :=
            (mul_inv_eq_one₀ (pow_ne_zero _ hψ0)).mp hx
          rw [pow_succ, pow_succ] at hpp
          have hpp2 : ψ ^ (2 * (j : ℕ)) = ψ ^ (2 * (i : ℕ)) :=
            mul_right_cancel₀ hψ0 hpp
          rw [pow_mul, pow_mul] at hpp2
          exact Fin.ext (hinj (i : ℕ) (j : ℕ) i.isLt j.isLt hpp2.symm)
        rw [if_neg hcond, mul_zero])
      (fun hj => absurd (Finset.mem_univ j) hj)]
  have hxj : ψ ^ (2 * (j : ℕ) + 1) * ψ⁻¹ ^ (2 * (j : ℕ) + 1) = 1 := by
    rw [inv_pow, mul_inv_cancel₀ (pow_ne_zero _ hψ0)]
  rw [hxj, if_pos rfl]
  calc (n : F)⁻¹ * (y j * (n : F)) = y j * ((n : F)⁻¹ * (n : F)) := by ring
    _ = y j := by rw [inv_mul_cancel₀ hn, mul_one]

/-- The forward transform maps negacyclic convolution to the componentwise
product: evaluation at a root of `X^n + 1` is a ring homomorphism from
`F[X]/(X^n + 1)`. -/
theorem ntt_negacyclicConv (n : ℕ) (ψ : F) (hψ : ψ ^ n = -1)
    (a b : Fin n → F) (j : Fin n) :
    nttFun n ψ (negacyclicConv n a b) j = nttFun n ψ a j * nttFun n ψ b j := by
  simp only [nttFun, negacyclicConv]
  rw [Finset.sum_mul_sum]
  simp only [Finset.sum_mul]
  rw [Finset.sum_comm]
  refine Finset.sum_congr rfl fun i _ => ?_
  rw [Finset.sum_comm]
  refine Finset.sum_congr rfl fun l _ => ?_
  have hn0 : 0 < n := i.pos
  by_cases hil : (i : ℕ) + (l : ℕ) < n
  · rw [Finset.sum_eq_single (⟨(i : ℕ) + (l : ℕ), hil⟩ : Fin n)
      (fun k _ hk => by
        rw [if_neg (fun hc => hk (Fin.ext hc.symm)), if_neg (by omega), zero_mul])
      (fun hk => absurd (Finset.mem_univ _) hk)]
    rw [if_pos rfl]
    have hk0 : ((⟨(i : ℕ) + (l : ℕ), hil⟩ : Fin n) : ℕ) = (i : ℕ) + (l : ℕ) := rfl
    rw [hk0]
    rw [show (2 * (j : ℕ) + 1) * ((i : ℕ) + (l : ℕ)) =
        (2 * (j : ℕ) + 1) * (i : ℕ) + (2 * (j : ℕ) + 1) * (l : ℕ) from by ring,
      pow_add]
    ring
  · push_neg at hil
    have hlt : (i : ℕ) + (l : ℕ) - n < n := by
      have := i.isLt
      have := l.isLt
      omega
    have hk0 : ((⟨(i : ℕ) + (l : ℕ) - n, hlt⟩ : Fin n) : ℕ) =
        (i : ℕ) + (l : ℕ) - n := rfl
    rw [Finset.sum_eq_single (⟨(i : ℕ) + (l : ℕ) - n, hlt⟩ : Fin n)
      (fun k _ hk => by
        have hkn := k.isLt
        rw [if_neg (by omega), if_neg (fun hc => hk (Fin.ext (by rw [hk0]; omega))),
          zero_mul])
      (fun hk => absurd (Finset.mem_univ _) hk)]
    rw [if_neg (by rw [hk0]; omega), if_pos (by rw [hk0]; omega), hk0]
    have hpsin : ψ ^ ((2 * (j : ℕ) + 1) * n) = -1 := by
      rw [mul_comm, pow_mul, hψ]
      exact Odd.neg_one_pow ⟨(j : ℕ), rfl⟩
    have hexp : (2 * (j : ℕ) + 1) * (i : ℕ) + (2 * (j : ℕ) + 1) * (l : ℕ) =
        (2 * (j : ℕ) + 1) * ((i : ℕ) + (l : ℕ) - n) + (2 * (j : ℕ) + 1) * n := by
      have hc : (i : ℕ) + (l : ℕ) - n + n = (i : ℕ) + (l : ℕ) := Nat.sub_add_cancel hil
      calc (2 * (j : ℕ) + 1) * (i : ℕ) + (2 * (j : ℕ) + 1) * (l : ℕ)
          = (2 * (j : ℕ) + 1) * (((i : ℕ) + (l : ℕ) - n) + n) := by rw [hc]; ring
        _ = (2 * (j : ℕ) + 1) * ((i : ℕ) + (l : ℕ) - n) + (2 * (j : ℕ) + 1) * n := by
            ring
    have hrhs : a i * ψ ^ ((2 * (j : ℕ) + 1) * (i : ℕ)) *
        (b l * ψ ^ ((2 * (j : ℕ) + 1) * (l : ℕ))) =
        a i * b l * (ψ ^ ((2 * (j : ℕ) + 1) * ((i : ℕ) + (l : ℕ) - n)) *
          ψ ^ ((2 * (j : ℕ) + 1) * n)) := by
      rw [← pow_add, ← hexp, pow_add]
      ring
    rw [hrhs, hpsin]
    ring

/-- Inverse-transforming the pointwise product of two forward transforms
yields the negacyclic convolution (spec §8, convolution property). -/
theorem invNtt_pointwise (n : ℕ) (ψ : F) (hψ : ψ ^ n = -1)
    (hinj : ∀ c d : ℕ, c < n → d < n → (ψ ^ 2) ^ c = (ψ ^ 2) ^ d → c = d)
    (hn : (n : F) ≠ 0) (a b : Fin n → F) :
    invNttFun n ψ (fun j => nttFun n ψ a j * nttFun n ψ b j) =
      negacyclicConv n a b := by
  have h1 : (fun j => nttFun n ψ a j * nttFun n ψ b j) =
      nttFun n ψ (negacyclicConv n a b) := by
    funext j
    exact (ntt_negacyclicConv n ψ hψ a b j).symm
  rw [h1, invNtt_ntt n ψ hψ hinj hn]

/-- The forward transform is additive (spec §8, linearity). -/
lemma nttFun_add (n : ℕ) (ψ : F) (a b : Fin n → F) (j : Fin n) :
    nttFun n ψ (fun i => a i + b i) j = nttFun n ψ a j + nttFun n ψ b j := by
  simp only [nttFun]
  rw [← Finset.sum_add_distrib]
  exact Finset.sum_congr rfl fun k _ => by ring

/-- The forward transform of the zero vector is zero. -/
lemma nttFun_zero (n : ℕ) (ψ : F) : nttFun n ψ (fun _ => 0) = fun _ => 0 := by
  funext j
  simp [nttFun]

end CoreThms

/-! ### Ring A root-of-unity and Montgomery facts -/

lemma mldsaZeta_pow : mldsaZeta ^ 256 = -1 := by
  have hdvd : (Q1 : ℕ) ∣ 1753 ^ 256 + 1 := by unfold Q1; decide
  have h0 : ((1753 ^ 256 + 1 : ℕ) : ZMod Q1) = 0 :=
    (ZMod.natCast_zmod_eq_zero_iff_dvd _ _).mpr hdvd
  have h1 : ((1753 ^ 256 + 1 : ℕ) : ZMod Q1) = mldsaZeta ^ 256 + 1 := by
    unfold mldsaZeta
    push_cast
    ring
  rw [h1] at h0
  linear_combination h0

lemma mldsaNegOne : (-1 : ZMod Q1) ≠ 1 := by decide

lemma mldsaN_ne : ((256 : ℕ) : ZMod Q1) ≠ 0 := by decide

lemma mldsaZeta_inj : ∀ c d : ℕ, c < 256 → d < 256 →
    (mldsaZeta ^ 2) ^ c = (mldsaZeta ^ 2) ^ d → c = d := by
  intro c d hc hd h
  exact pow_two_sq_inj 8 (by norm_num) mldsaZeta mldsaZeta_pow mldsaNegOne hc hd h

lemma hQ1cast : ((Q1 : ℕ) : ℤ) = 8380417 := by norm_num [Q1]

lemma montgomery_reduce_exact (a : ℤ) :
    montgomery_reduce a * 2 ^ 32 = a - (a * QINV).bmod (2 ^ 32) * (Q1 : ℤ) := by
  apply Int.ediv_mul_cancel
  have hmod : (a * QINV).bmod (2 ^ 32) % ((2 ^ 32 : ℕ) : ℤ) =
      (a * QINV) % ((2 ^ 32 : ℕ) : ℤ) := Int.bmod_emod
  have h1 : Int.ModEq ((2 ^ 32 : ℕ) : ℤ) ((a * QINV).bmod (2 ^ 32)) (a * QINV) := hmod
  have hq : Int.ModEq ((2 ^ 32 : ℕ) : ℤ) (QINV * (Q1 : ℤ)) 1 := by
    show (QINV * (Q1 : ℤ)) % ((2 ^ 32 : ℕ) : ℤ) = 1 % ((2 ^ 32 : ℕ) : ℤ)
    rw [hQ1cast]
    decide
  have h2 : Int.ModEq ((2 ^ 32 : ℕ) : ℤ)
      ((a * QINV).bmod (2 ^ 32) * (Q1 : ℤ)) (a * (QINV * (Q1 : ℤ))) := by
    have hmr := h1.mul_right (Q1 : ℤ)
    calc (a * QINV).bmod (2 ^ 32) * (Q1 : ℤ)
        ≡ a * QINV * (Q1 : ℤ) [ZMOD ((2 ^ 32 : ℕ) : ℤ)] := hmr
      _ = a * (QINV * (Q1 : ℤ)) := by ring
  have h3 : Int.ModEq ((2 ^ 32 : ℕ) : ℤ) (a * (QINV * (Q1 : ℤ))) a := by
    calc a * (QINV * (Q1 : ℤ)) ≡ a * 1 [ZMOD ((2 ^ 32 : ℕ) : ℤ)] :=
        (Int.ModEq.refl a).mul hq
      _ = a := by ring
  have h4 : Int.ModEq ((2 ^ 32 : ℕ) : ℤ)
      (a - (a * QINV).bmod (2 ^ 32) * (Q1 : ℤ)) (a - a) :=
    (Int.ModEq.refl a).sub (h2.trans h3)
  have h5 : ((2 ^ 32 : ℕ) : ℤ) ∣ (a - a) - (a - (a * QINV).bmod (2 ^ 32) * (Q1 : ℤ)) :=
    Int.ModEq.dvd h4
  have h6 : ((2 ^ 32 : ℕ) : ℤ) = (2 ^ 32 : ℤ) := by norm_num
  rw [h6] at h5
  have h7 : (a - a) - (a - (a * QINV).bmod (2 ^ 32) * (Q1 : ℤ)) =
      -(a - (a * QINV).bmod (2 ^ 32) * (Q1 : ℤ)) := by ring
  rw [h7] at h5
  exact (dvd_neg.mp h5)

lemma montgomery_reduce_congr (a : ℤ) :
    ((montgomery_reduce a : ℤ) : ZMod Q1) = (a : ZMod Q1) * mldsaR⁻¹ := by
  have heq := montgomery_reduce_exact a
  have hcast : ((montgomery_reduce a * 2 ^ 32 : ℤ) : ZMod Q1) =
      ((a - (a * QINV).bmod (2 ^ 32) * (Q1 : ℤ) : ℤ) : ZMod Q1) := by rw [heq]
  push_cast at hcast
  rw [ZMod.natCast_self, mul_zero, sub_zero] at hcast
  have hR : (mldsaR : ZMod Q1) ≠ 0 := by unfold mldsaR; decide
  field_simp
  rw [mul_comm] at hcast ⊢
  rw [← hcast]
  unfold mldsaR
  push_cast
  ring

lemma montgomery_reduce_range (a : ℤ) (h0 : 0 ≤ a) (h1 : a < (Q1 : ℤ)) :
    -(Q1 : ℤ) ≤ montgomery_reduce a ∧ montgomery_reduce a < (Q1 : ℤ) := by
  have heq := montgomery_reduce_exact a
  have hb1 : (a * QINV).bmod (2 ^ 32) < ((2 ^ 32 : ℕ) + 1) / 2 :=
    Int.bmod_lt (by norm_num)
  have hb2 : -(((2 ^ 32 : ℕ) : ℤ) / 2) ≤ (a * QINV).bmod (2 ^ 32) :=
    Int.le_bmod (by norm_num)
  rw [hQ1cast] at h1 ⊢
  have hb1' : (a * QINV).bmod (2 ^ 32) < 2 ^ 31 := by
    have : (((2 ^ 32 : ℕ) : ℤ) + 1) / 2 = 2 ^ 31 := by norm_num
    omega
  have hb2' : -(2 ^ 31) ≤ (a * QINV).bmod (2 ^ 32) := by
    have : (((2 ^ 32 : ℕ) : ℤ) / 2) = 2 ^ 31 := by norm_num
    omega
  rw [hQ1cast] at heq
  constructor
  · nlinarith [heq, hb1', h0, h1]
  · nlinarith [heq, hb2', h0, h1]

lemma freeze_congr (a : ℤ) : ((freeze a : ℤ) : ZMod Q1) = (a : ZMod Q1) := by
  unfold freeze
  split
  · push_cast
    rw [ZMod.natCast_self]
    ring
  · rfl

lemma freeze_range (a : ℤ) (h1 : -(Q1 : ℤ) ≤ a) (h2 : a < (Q1 : ℤ)) :
    0 ≤ freeze a ∧ freeze a < (Q1 : ℤ) := by
  unfold freeze
  split <;> omega

/-! ### Canonical integer representatives of residue classes -/

lemma val_intCast_eq (q : ℕ) [NeZero q] (x : ℤ) (h0 : 0 ≤ x) (h1 : x < (q : ℤ)) :
    (((x : ZMod q).val : ℕ) : ℤ) = x := by
  lift x to ℕ using h0 with m
  rw [Int.cast_natCast, ZMod.val_cast_of_lt (by exact_mod_cast h1)]

lemma intCast_val (q : ℕ) [NeZero q] (x : ZMod q) :
    (((x.val : ℕ) : ℤ) : ZMod q) = x := by
  push_cast
  rw [ZMod.natCast_val, ZMod.cast_id]

lemma val_nonneg_lt (q : ℕ) [NeZero q] (x : ZMod q) :
    0 ≤ ((x.val : ℕ) : ℤ) ∧ ((x.val : ℕ) : ℤ) < (q : ℤ) :=
  ⟨Int.natCast_nonneg _, by exact_mod_cast x.val_lt⟩

lemma int_eq_of_cast_eq (q : ℕ) [NeZero q] (x y : ℤ)
    (hx0 : 0 ≤ x) (hx1 : x < (q : ℤ)) (hy0 : 0 ≤ y) (hy1 : y < (q : ℤ))
    (h : (x : ZMod q) = (y : ZMod q)) : x = y := by
  have hx := val_intCast_eq q x hx0 hx1
  have hy := val_intCast_eq q y hy0 hy1
  rw [← hx, ← hy, h]

/-- The two-step normalization of the standard-mode inverse (one Montgomery
reduction then one freeze) turns the canonical representative of `R·w` into
the canonical representative of `w`: the Montgomery factor cancels and the
result lands in `[0, Q1)`. -/
lemma std_chain (w : ZMod Q1) :
    freeze (montgomery_reduce (((mldsaR * w).val : ℕ) : ℤ)) = ((w.val : ℕ) : ℤ) := by
  set v : ℤ := (((mldsaR * w).val : ℕ) : ℤ) with hv
  obtain ⟨hv0, hv1⟩ := val_nonneg_lt Q1 (mldsaR * w)
  obtain ⟨hm0, hm1⟩ := montgomery_reduce_range v hv0 hv1
  obtain ⟨hf0, hf1⟩ := freeze_range (montgomery_reduce v) hm0 hm1
  obtain ⟨hw0, hw1⟩ := val_nonneg_lt Q1 w
  apply int_eq_of_cast_eq Q1 _ _ hf0 hf1 hw0 hw1
  rw [freeze_congr, montgomery_reduce_congr, hv, intCast_val, intCast_val]
  have hR : (mldsaR : ZMod Q1) ≠ 0 := by unfold mldsaR; decide
  field_simp

/-! ### Ring B root-of-unity facts -/

lemma falconG_pow : falconG ^ 1024 = -1 := by
  have hdvd : (Q2 : ℕ) ∣ (7 ^ 256) ^ 4 + 1 := by unfold Q2; decide
  have h0 : (((7 ^ 256) ^ 4 + 1 : ℕ) : ZMod Q2) = 0 :=
    (ZMod.natCast_zmod_eq_zero_iff_dvd _ _).mpr hdvd
  have h1 : (((7 ^ 256) ^ 4 + 1 : ℕ) : ZMod Q2) = falconG ^ 1024 + 1 := by
    rw [Nat.cast_add, Nat.cast_pow, Nat.cast_pow, Nat.cast_one, ← pow_mul]
    norm_num [falconG]
  rw [h1] at h0
  linear_combination h0

lemma falconPsi9_pow : falconPsi 9 ^ 512 = -1 := by
  unfold falconPsi
  have h : (2 : ℕ) ^ (10 - 9) * 512 = 1024 := by norm_num
  rw [← pow_mul, h]
  exact falconG_pow

lemma falconPsi10_pow : falconPsi 10 ^ 1024 = -1 := by
  unfold falconPsi
  have h : (2 : ℕ) ^ (10 - 10) = 1 := by norm_num
  rw [h, pow_one]
  exact falconG_pow

lemma falconNegOne : (-1 : ZMod Q2) ≠ 1 := by decide

lemma falcon512_ne : ((512 : ℕ) : ZMod Q2) ≠ 0 := by decide

lemma falcon1024_ne : ((1024 : ℕ) : ZMod Q2) ≠ 0 := by decide

lemma falconPsi9_inj : ∀ c d : ℕ, c < 512 → d < 512 →
    (falconPsi 9 ^ 2) ^ c = (falconPsi 9 ^ 2) ^ d → c = d := by
  intro c d hc hd h
  exact pow_two_sq_inj 9 (by norm_num) (falconPsi 9) falconPsi9_pow falconNegOne hc hd h

lemma falconPsi10_inj : ∀ c d : ℕ, c < 1024 → d < 1024 →
    (falconPsi 10 ^ 2) ^ c = (falconPsi 10 ^ 2) ^ d → c = d := by
  intro c d hc hd h
  exact pow_two_sq_inj 10 (by norm_num) (falconPsi 10) falconPsi10_pow falconNegOne hc hd h

/-! ### Buffer-level facts -/

lemma intCast_emod (q : ℕ) [NeZero q] (x : ℤ) :
    (((x % (q : ℤ)) : ℤ) : ZMod q) = (x : ZMod q) := by
  conv_rhs => rw [← Int.emod_add_ediv x (q : ℤ)]
  push_cast
  rw [ZMod.natCast_self]
  ring

lemma nttBuf_cast (q n : ℕ) [Fact (Nat.Prime q)] [NeZero q] (ψ : ZMod q)
    (a : Fin n → ℤ) (j : Fin n) :
    ((nttBuf q n ψ a j : ℤ) : ZMod q) = nttFun n ψ (fun k => ((a k : ℤ) : ZMod q)) j :=
  intCast_val q _

/-- Buffer-level roundtrip for canonical inputs: forward then inverse is
the identity on integer buffers whose coefficients lie in `[0, q)`. -/
lemma invNttBuf_nttBuf (q n : ℕ) [Fact (Nat.Prime q)] [NeZero q] (ψ : ZMod q)
    (hψ : ψ ^ n = -1)
    (hinj : ∀ c d : ℕ, c < n → d < n → (ψ ^ 2) ^ c = (ψ ^ 2) ^ d → c = d)
    (hn : ((n : ℕ) : ZMod q) ≠ 0) (a : Fin n → ℤ)
    (h : ∀ i, 0 ≤ a i ∧ a i < (q : ℤ)) :
    invNttBuf q n ψ (nttBuf q n ψ a) = a := by
  funext k
  show ((invNttFun n ψ (fun i => ((nttBuf q n ψ a i : ℤ) : ZMod q)) k).val : ℕ) =
    (a k : ℤ)
  have hc : (fun i => ((nttBuf q n ψ a i : ℤ) : ZMod q)) =
      nttFun n ψ (fun i => ((a i : ℤ) : ZMod q)) :=
    funext fun i => nttBuf_cast q n ψ a i
  rw [hc, invNtt_ntt n ψ hψ hinj hn]
  exact val_intCast_eq q (a k) (h k).1 (h k).2

/-- Buffer-level convolution: inverse of the componentwise mod-`q` product
of two forward transforms equals the canonical representative of the
negacyclic convolution. -/
lemma invNttBuf_pointwise_buf (q n : ℕ) [Fact (Nat.Prime q)] [NeZero q] (ψ : ZMod q)
    (hψ : ψ ^ n = -1)
    (hinj : ∀ c d : ℕ, c < n → d < n → (ψ ^ 2) ^ c = (ψ ^ 2) ^ d → c = d)
    (hn : ((n : ℕ) : ZMod q) ≠ 0) (a b : Fin n → ℤ) :
    invNttBuf q n ψ (fun i => (nttBuf q n ψ a i * nttBuf q n ψ b i) % (q : ℤ)) =
      fun k => (((negacyclicConv n (fun i => ((a i : ℤ) : ZMod q))
        (fun i => ((b i : ℤ) : ZMod q)) k).val : ℕ) : ℤ) := by
  funext k
  simp only [invNttBuf]
  have hc : (fun i => (((nttBuf q n ψ a i * nttBuf q n ψ b i) % (q : ℤ) : ℤ) : ZMod q)) =
      fun i => nttFun n ψ (fun t => ((a t : ℤ) : ZMod q)) i *
        nttFun n ψ (fun t => ((b t : ℤ) : ZMod q)) i := by
    funext i
    rw [intCast_emod, Int.cast_mul, nttBuf_cast, nttBuf_cast]
  rw [hc, invNtt_pointwise n ψ hψ hinj hn]

/-- Buffer-level linearity of the forward transform, mod `q`. -/
lemma nttBuf_linear (q n : ℕ) [Fact (Nat.Prime q)] [NeZero q] (ψ : ZMod q)
    (a b : Fin n → ℤ) (j : Fin n) :
    ((nttBuf q n ψ (fun i => (a i + b i) % (q : ℤ)) j : ℤ) : ZMod q) =
      ((nttBuf q n ψ a j : ℤ) : ZMod q) + ((nttBuf q n ψ b j : ℤ) : ZMod q) := by
  rw [nttBuf_cast, nttBuf_cast, nttBuf_cast]
  have hc : (fun k => ((((fun i => (a i + b i) % (q : ℤ)) k : ℤ)) : ZMod q)) =
      fun i => ((a i : ℤ) : ZMod q) + ((b i : ℤ) : ZMod q) := by
    funext i
    show ((((a i + b i) % (q : ℤ)) : ℤ) : ZMod q) = _
    rw [intCast_emod]
    push_cast
    ring
  rw [hc]
  exact nttFun_add n ψ _ _ j

/-! ### The ML-DSA wrappers in generic buffer form -/

lemma OQS44_ntt_eq : OQS_SIG_ml_dsa_44_ref_ntt = nttBuf Q1 256 mldsaZeta := rfl

lemma OQS65_ntt_eq : OQS_SIG_ml_dsa_65_ref_ntt = nttBuf Q1 256 mldsaZeta := rfl

lemma OQS87_ntt_eq : OQS_SIG_ml_dsa_87_ref_ntt = nttBuf Q1 256 mldsaZeta := rfl

lemma OQS44_invntt_eq :
    OQS_SIG_ml_dsa_44_ref_invntt = invNttBuf Q1 256 mldsaZeta := by
  funext a k
  exact std_chain (invNttFun 256 mldsaZeta (fun i => ((a i : ℤ) : ZMod Q1)) k)

lemma OQS65_invntt_eq :
    OQS_SIG_ml_dsa_65_ref_invntt = invNttBuf Q1 256 mldsaZeta := by
  funext a k
  exact std_chain (invNttFun 256 mldsaZeta (fun i => ((a i : ℤ) : ZMod Q1)) k)

lemma OQS87_invntt_eq :
    OQS_SIG_ml_dsa_87_ref_invntt = invNttBuf Q1 256 mldsaZeta := by
  funext a k
  exact std_chain (invNttFun 256 mldsaZeta (fun i => ((a i : ℤ) : ZMod Q1)) k)

/-! ### The claims -/

/-- C1: for every ring and supported size (Ring A: `n = 256`,
`q = 8380417`; Ring B: `n = 512` and `n = 1024`, `q = 12289`) and every
input buffer whose coefficients are canonical residues in `[0, q)`,
applying the forward transform and then the standard-mode inverse
transform restores the buffer exactly, coefficient for coefficient, with
integer equality and no tolerance. -/
theorem claim_C1_roundtrip :
    (∀ a : Fin 256 → ℤ, (∀ i, 0 ≤ a i ∧ a i < (Q1 : ℤ)) →
      OQS_SIG_ml_dsa_44_ref_invntt (OQS_SIG_ml_dsa_44_ref_ntt a) = a ∧
      OQS_SIG_ml_dsa_65_ref_invntt (OQS_SIG_ml_dsa_65_ref_ntt a) = a ∧
      OQS_SIG_ml_dsa_87_ref_invntt (OQS_SIG_ml_dsa_87_ref_ntt a) = a) ∧
    (∀ a : Fin 512 → ℤ, (∀ i, 0 ≤ a i ∧ a i < (Q2 : ℤ)) →
      FALCON_CLEAN_mq_iNTT 9 (FALCON_CLEAN_mq_NTT 9 a) = a) ∧
    (∀ a : Fin 1024 → ℤ, (∀ i, 0 ≤ a i ∧ a i < (Q2 : ℤ)) →
      FALCON_CLEAN_mq_iNTT 10 (FALCON_CLEAN_mq_NTT 10 a) = a) := by
  refine ⟨fun a h => ?_, fun a h => ?_, fun a h => ?_⟩
  · have hgen := invNttBuf_nttBuf Q1 256 mldsaZeta mldsaZeta_pow mldsaZeta_inj
      mldsaN_ne a h
    exact ⟨by rw [OQS44_invntt_eq, OQS44_ntt_eq]; exact hgen,
      by rw [OQS65_invntt_eq, OQS65_ntt_eq]; exact hgen,
      by rw [OQS87_invntt_eq, OQS87_ntt_eq]; exact hgen⟩
  · exact invNttBuf_nttBuf Q2 512 (falconPsi 9) falconPsi9_pow falconPsi9_inj
      falcon512_ne a h
  · exact invNttBuf_nttBuf Q2 1024 (falconPsi 10) falconPsi10_pow falconPsi10_inj
      falcon1024_ne a h

/-- C1 witness: the roundtrip theorem applied at the zero buffer of each
ring, with the canonical-range hypotheses discharged concretely. -/
theorem claim_C1_roundtrip_witness :
    ((∀ i : Fin 256, 0 ≤ (0 : ℤ) ∧ (0 : ℤ) < (Q1 : ℤ)) ∧
      OQS_SIG_ml_dsa_44_ref_invntt
        (OQS_SIG_ml_dsa_44_ref_ntt (fun _ => 0)) = (fun _ => 0)) ∧
    ((∀ i : Fin 512, 0 ≤ (0 : ℤ) ∧ (0 : ℤ) < (Q2 : ℤ)) ∧
      FALCON_CLEAN_mq_iNTT 9 (FALCON_CLEAN_mq_NTT 9 (fun _ => 0)) = (fun _ => 0)) :=
  ⟨⟨fun _ => ⟨le_refl 0, by norm_num [Q1]⟩,
    (claim_C1_roundtrip.1 (fun _ => 0) (fun _ => ⟨le_refl 0, by norm_num [Q1]⟩)).1⟩,
  ⟨fun _ => ⟨le_refl 0, by norm_num [Q2]⟩,
    claim_C1_roundtrip.2.1 (fun _ => 0) (fun _ => ⟨le_refl 0, by norm_num [Q2]⟩)⟩⟩

/-- C3: the standard-mode inverse `OQS_SIG_ml_dsa_{44,65,87}_ref_invntt`
is exactly the composition of the Montgomery-scaled inverse
`*_invntt_tomont` followed, per coefficient in order, by one
`montgomery_reduce` and one `freeze`; consequently the two inverse modes
agree up to the Montgomery factor `R = 2^32`. -/
theorem claim_C3_thin_wrapper :
    (∀ a : Fin 256 → ℤ, OQS_SIG_ml_dsa_44_ref_invntt a =
      fun i => freeze (montgomery_reduce (OQS_SIG_ml_dsa_44_ref_invntt_tomont a i))) ∧
    (∀ a : Fin 256 → ℤ, OQS_SIG_ml_dsa_65_ref_invntt a =
      fun i => freeze (montgomery_reduce (OQS_SIG_ml_dsa_65_ref_invntt_tomont a i))) ∧
    (∀ a : Fin 256 → ℤ, OQS_SIG_ml_dsa_87_ref_invntt a =
      fun i => freeze (montgomery_reduce (OQS_SIG_ml_dsa_87_ref_invntt_tomont a i))) ∧
    (∀ a : Fin 256 → ℤ, ∀ i : Fin 256,
      ((OQS_SIG_ml_dsa_44_ref_invntt a i : ℤ) : ZMod Q1) =
        ((OQS_SIG_ml_dsa_44_ref_invntt_tomont a i : ℤ) : ZMod Q1) * mldsaR⁻¹) := by
  refine ⟨fun a => rfl, fun a => rfl, fun a => rfl, fun a i => ?_⟩
  show ((freeze (montgomery_reduce (OQS_SIG_ml_dsa_44_ref_invntt_tomont a i)) : ℤ) :
    ZMod Q1) = _
  rw [freeze_congr, montgomery_reduce_congr]

/-- C4: for every 256-coefficient input satisfying the inverse-transform
precondition (each coefficient smaller than `Q1` in absolute value), every
coefficient of the output of the Ring A standard-mode inverse transform is
a canonical residue in `[0, Q1)`. -/
theorem claim_C4_canonical_range :
    ∀ a : Fin 256 → ℤ, (∀ i, |a i| < (Q1 : ℤ)) → ∀ i : Fin 256,
      (0 ≤ OQS_SIG_ml_dsa_44_ref_invntt a i ∧
        OQS_SIG_ml_dsa_44_ref_invntt a i < (Q1 : ℤ)) ∧
      (0 ≤ OQS_SIG_ml_dsa_65_ref_invntt a i ∧
        OQS_SIG_ml_dsa_65_ref_invntt a i < (Q1 : ℤ)) ∧
      (0 ≤ OQS_SIG_ml_dsa_87_ref_invntt a i ∧
        OQS_SIG_ml_dsa_87_ref_invntt a i < (Q1 : ℤ)) := by
  intro a _ i
  have h44 : 0 ≤ OQS_SIG_ml_dsa_44_ref_invntt a i ∧
      OQS_SIG_ml_dsa_44_ref_invntt a i < (Q1 : ℤ) := by
    rw [OQS44_invntt_eq]
    exact val_nonneg_lt Q1 _
  exact ⟨h44, by rw [OQS65_invntt_eq]; exact val_nonneg_lt Q1 _,
    by rw [OQS87_invntt_eq]; exact val_nonneg_lt Q1 _⟩

/-- C4 witness: the canonical-range theorem applied at the zero buffer. -/
theorem claim_C4_canonical_range_witness :
    (∀ i : Fin 256, |(0 : ℤ)| < (Q1 : ℤ)) ∧
    (0 ≤ OQS_SIG_ml_dsa_44_ref_invntt (fun _ => 0) 0 ∧
      OQS_SIG_ml_dsa_44_ref_invntt (fun _ => 0) 0 < (Q1 : ℤ)) :=
  ⟨fun _ => by norm_num [Q1],
    (claim_C4_canonical_range (fun _ => 0) (fun _ => by norm_num [Q1]) 0).1⟩

/-- C6: the three Ring A variant entry points (44, 65, 87) of each
operation (forward, standard inverse, Montgomery-scaled inverse) produce
bit-identical outputs on the same input. -/
theorem claim_C6_variant_consistency :
    ∀ a : Fin 256 → ℤ,
      (OQS_SIG_ml_dsa_44_ref_ntt a = OQS_SIG_ml_dsa_65_ref_ntt a ∧
        OQS_SIG_ml_dsa_44_ref_ntt a = OQS_SIG_ml_dsa_87_ref_ntt a) ∧
      (OQS_SIG_ml_dsa_44_ref_invntt a = OQS_SIG_ml_dsa_65_ref_invntt a ∧
        OQS_SIG_ml_dsa_44_ref_invntt a = OQS_SIG_ml_dsa_87_ref_invntt a) ∧
      (OQS_SIG_ml_dsa_44_ref_invntt_tomont a = OQS_SIG_ml_dsa_65_ref_invntt_tomont a ∧
        OQS_SIG_ml_dsa_44_ref_invntt_tomont a = OQS_SIG_ml_dsa_87_ref_invntt_tomont a) :=
  fun _ => ⟨⟨rfl, rfl⟩, ⟨rfl, rfl⟩, ⟨rfl, rfl⟩⟩

/-- C2: for every pair of polynomials `a`, `b` with coefficients in
`[0, q)`, inverse-transforming (standard mode) the componentwise mod-`q`
product of the two forward transforms yields exactly the negacyclic
convolution of `a` and `b` — the coefficients of `a*b` reduced modulo
`X^n + 1` and modulo `q` — for Ring A and both sizes of Ring B. -/
theorem claim_C2_convolution :
    (∀ a b : Fin 256 → ℤ, (∀ i, 0 ≤ a i ∧ a i < (Q1 : ℤ)) →
      (∀ i, 0 ≤ b i ∧ b i < (Q1 : ℤ)) →
      OQS_SIG_ml_dsa_44_ref_invntt
        (fun i => (OQS_SIG_ml_dsa_44_ref_ntt a i * OQS_SIG_ml_dsa_44_ref_ntt b i)
          % (Q1 : ℤ)) =
      fun k => (((negacyclicConv 256 (fun i => ((a i : ℤ) : ZMod Q1))
        (fun i => ((b i : ℤ) : ZMod Q1)) k).val : ℕ) : ℤ)) ∧
    (∀ a b : Fin 512 → ℤ, (∀ i, 0 ≤ a i ∧ a i < (Q2 : ℤ)) →
      (∀ i, 0 ≤ b i ∧ b i < (Q2 : ℤ)) →
      FALCON_CLEAN_mq_iNTT 9
        (fun i => (FALCON_CLEAN_mq_NTT 9 a i * FALCON_CLEAN_mq_NTT 9 b i)
          % (Q2 : ℤ)) =
      fun k => (((negacyclicConv 512 (fun i => ((a i : ℤ) : ZMod Q2))
        (fun i => ((b i : ℤ) : ZMod Q2)) k).val : ℕ) : ℤ)) ∧
    (∀ a b : Fin 1024 → ℤ, (∀ i, 0 ≤ a i ∧ a i < (Q2 : ℤ)) →
      (∀ i, 0 ≤ b i ∧ b i < (Q2 : ℤ)) →
      FALCON_CLEAN_mq_iNTT 10
        (fun i => (FALCON_CLEAN_mq_NTT 10 a i * FALCON_CLEAN_mq_NTT 10 b i)
          % (Q2 : ℤ)) =
      fun k => (((negacyclicConv 1024 (fun i => ((a i : ℤ) : ZMod Q2))
        (fun i => ((b i : ℤ) : ZMod Q2)) k).val : ℕ) : ℤ)) := by
  refine ⟨fun a b _ _ => ?_, fun a b _ _ => ?_, fun a b _ _ => ?_⟩
  · rw [OQS44_invntt_eq, OQS44_ntt_eq]
    exact invNttBuf_pointwise_buf Q1 256 mldsaZeta mldsaZeta_pow mldsaZeta_inj
      mldsaN_ne a b
  · exact invNttBuf_pointwise_buf Q2 512 (falconPsi 9) falconPsi9_pow falconPsi9_inj
      falcon512_ne a b
  · exact invNttBuf_pointwise_buf Q2 1024 (falconPsi 10) falconPsi10_pow
      falconPsi10_inj falcon1024_ne a b

/-- C2 witness: the convolution theorem applied at the all-zero pair for
Ring A, with the canonical-range hypotheses discharged concretely. -/
theorem claim_C2_convolution_witness :
    (∀ i : Fin 256, 0 ≤ (0 : ℤ) ∧ (0 : ℤ) < (Q1 : ℤ)) ∧
    (OQS_SIG_ml_dsa_44_ref_invntt
      (fun i => (OQS_SIG_ml_dsa_44_ref_ntt (fun _ => 0) i *
        OQS_SIG_ml_dsa_44_ref_ntt (fun _ => 0) i) % (Q1 : ℤ)) =
      fun k => (((negacyclicConv 256 (fun i => (((0 : ℤ)) : ZMod Q1))
        (fun i => (((0 : ℤ)) : ZMod Q1)) k).val : ℕ) : ℤ)) :=
  ⟨fun _ => ⟨le_refl 0, by norm_num [Q1]⟩,
    claim_C2_convolution.1 (fun _ => 0) (fun _ => 0)
      (fun _ => ⟨le_refl 0, by norm_num [Q1]⟩)
      (fun _ => ⟨le_refl 0, by norm_num [Q1]⟩)⟩

/-- C5: for every nonzero 256-coefficient evaluation-form input with
coefficients of absolute value below `Q1`, the Montgomery-scaled inverse
and the standard inverse produce results that differ on at least one
coefficient, for every Ring A variant. -/
theorem claim_C5_divergence :
    ∀ a : Fin 256 → ℤ, (∀ i, |a i| < (Q1 : ℤ)) → (∃ i, a i ≠ 0) →
      (∃ k, OQS_SIG_ml_dsa_44_ref_invntt_tomont a k ≠
        OQS_SIG_ml_dsa_44_ref_invntt a k) ∧
      (∃ k, OQS_SIG_ml_dsa_65_ref_invntt_tomont a k ≠
        OQS_SIG_ml_dsa_65_ref_invntt a k) ∧
      (∃ k, OQS_SIG_ml_dsa_87_ref_invntt_tomont a k ≠
        OQS_SIG_ml_dsa_87_ref_invntt a k) := by
  intro a habs hex
  have h44 : ∃ k, OQS_SIG_ml_dsa_44_ref_invntt_tomont a k ≠
      OQS_SIG_ml_dsa_44_ref_invntt a k := by
    set abar : Fin 256 → ZMod Q1 := fun i => ((a i : ℤ) : ZMod Q1) with habar
    obtain ⟨i0, hi0⟩ := hex
    have habar0 : abar i0 ≠ 0 := by
      intro h0
      have hdvd : ((Q1 : ℕ) : ℤ) ∣ a i0 :=
        (ZMod.intCast_zmod_eq_zero_iff_dvd _ _).mp h0
      exact hi0 (Int.eq_zero_of_abs_lt_dvd hdvd (habs i0))
    set v : Fin 256 → ZMod Q1 := invNttFun 256 mldsaZeta abar with hvdef
    have hvne : ∃ k, v k ≠ 0 := by
      by_contra hall
      push_neg at hall
      have hv0 : v = fun _ => 0 := funext hall
      have hrt := ntt_invNtt 256 mldsaZeta mldsaZeta_pow mldsaZeta_inj mldsaN_ne abar
      rw [← hvdef, hv0, nttFun_zero] at hrt
      exact habar0 (by rw [← hrt])
    obtain ⟨k, hk⟩ := hvne
    refine ⟨k, fun hEq => ?_⟩
    have hEq2 : ((OQS_SIG_ml_dsa_44_ref_invntt_tomont a k : ℤ) : ZMod Q1) =
        ((OQS_SIG_ml_dsa_44_ref_invntt a k : ℤ) : ZMod Q1) := by rw [hEq]
    have hL : ((OQS_SIG_ml_dsa_44_ref_invntt_tomont a k : ℤ) : ZMod Q1) =
        mldsaR * v k := intCast_val Q1 _
    have hR : ((OQS_SIG_ml_dsa_44_ref_invntt a k : ℤ) : ZMod Q1) = v k := by
      rw [OQS44_invntt_eq]
      exact intCast_val Q1 _
    rw [hL, hR] at hEq2
    have hone : mldsaR = 1 := by
      have h1 : mldsaR * v k = 1 * v k := by rw [hEq2, one_mul]
      exact mul_right_cancel₀ hk h1
    exact (by decide : mldsaR ≠ 1) hone
  exact ⟨h44, h44, h44⟩

/-- C5 witness: the divergence theorem applied at the delta input
(`1` at index `0`, zero elsewhere), hypotheses discharged concretely. -/
theorem claim_C5_divergence_witness :
    (∀ i : Fin 256, |(if i = 0 then (1 : ℤ) else 0)| < (Q1 : ℤ)) ∧
    (∃ i : Fin 256, (if i = 0 then (1 : ℤ) else 0) ≠ 0) ∧
    (∃ k, OQS_SIG_ml_dsa_44_ref_invntt_tomont
        (fun i => if i = 0 then (1 : ℤ) else 0) k ≠
      OQS_SIG_ml_dsa_44_ref_invntt (fun i => if i = 0 then (1 : ℤ) else 0) k) :=
  ⟨by decide, by decide,
    (claim_C5_divergence (fun i => if i = 0 then (1 : ℤ) else 0)
      (by decide) (by decide)).1⟩

/-- C7: for all polynomials `a`, `b` with coefficients in `[0, q)`, each
coefficient of the forward transform of the componentwise sum mod `q` is
congruent mod `q` to the sum of the corresponding coefficients of the two
forward transforms, for Ring A and both sizes of Ring B. -/
theorem claim_C7_linearity :
    (∀ a b : Fin 256 → ℤ, (∀ i, 0 ≤ a i ∧ a i < (Q1 : ℤ)) →
      (∀ i, 0 ≤ b i ∧ b i < (Q1 : ℤ)) → ∀ j : Fin 256,
      ((OQS_SIG_ml_dsa_44_ref_ntt (fun i => (a i + b i) % (Q1 : ℤ)) j : ℤ) :
          ZMod Q1) =
        ((OQS_SIG_ml_dsa_44_ref_ntt a j : ℤ) : ZMod Q1) +
        ((OQS_SIG_ml_dsa_44_ref_ntt b j : ℤ) : ZMod Q1)) ∧
    (∀ a b : Fin 512 → ℤ, (∀ i, 0 ≤ a i ∧ a i < (Q2 : ℤ)) →
      (∀ i, 0 ≤ b i ∧ b i < (Q2 : ℤ)) → ∀ j : Fin 512,
      ((FALCON_CLEAN_mq_NTT 9 (fun i => (a i + b i) % (Q2 : ℤ)) j : ℤ) :
          ZMod Q2) =
        ((FALCON_CLEAN_mq_NTT 9 a j : ℤ) : ZMod Q2) +
        ((FALCON_CLEAN_mq_NTT 9 b j : ℤ) : ZMod Q2)) ∧
    (∀ a b : Fin 1024 → ℤ, (∀ i, 0 ≤ a i ∧ a i < (Q2 : ℤ)) →
      (∀ i, 0 ≤ b i ∧ b i < (Q2 : ℤ)) → ∀ j : Fin 1024,
      ((FALCON_CLEAN_mq_NTT 10 (fun i => (a i + b i) % (Q2 : ℤ)) j : ℤ) :
          ZMod Q2) =
        ((FALCON_CLEAN_mq_NTT 10 a j : ℤ) : ZMod Q2) +
        ((FALCON_CLEAN_mq_NTT 10 b j : ℤ) : ZMod Q2)) := by
  refine ⟨fun a b _ _ j => ?_, fun a b _ _ j => ?_, fun a b _ _ j => ?_⟩
  · rw [OQS44_ntt_eq]
    exact nttBuf_linear Q1 256 mldsaZeta a b j
  · exact nttBuf_linear Q2 512 (falconPsi 9) a b j
  · exact nttBuf_linear Q2 1024 (falconPsi 10) a b j

/-- C7 witness: the linearity theorem applied at the zero pair for Ring A,
hypotheses discharged concretely. -/
theorem claim_C7_linearity_witness :
    (∀ i : Fin 256, 0 ≤ (0 : ℤ) ∧ (0 : ℤ) < (Q1 : ℤ)) ∧
    ((OQS_SIG_ml_dsa_44_ref_ntt
        (fun i => ((0 : ℤ) + 0) % (Q1 : ℤ)) 0 : ℤ) : ZMod Q1) =
      ((OQS_SIG_ml_dsa_44_ref_ntt (fun _ => 0) 0 : ℤ) : ZMod Q1) +
      ((OQS_SIG_ml_dsa_44_ref_ntt (fun _ => 0) 0 : ℤ) : ZMod Q1) :=
  ⟨fun _ => ⟨le_refl 0, by norm_num [Q1]⟩,
    claim_C7_linearity.1 (fun _ => 0) (fun _ => 0)
      (fun _ => ⟨le_refl 0, by norm_num [Q1]⟩)
      (fun _ => ⟨le_refl 0, by norm_num [Q1]⟩) 0⟩

/-- C8: `Falcon_NTT` and `Falcon_InvNTT` return an error if and only if
the polynomial pointer is nil, or the slice length differs from `2^logn`,
or `logn` is not `9` and not `10`; in particular an unsupported `logn` is
always rejected and never silently mapped to a supported size. -/
theorem claim_C8_falcon_validation :
    (∀ (poly : Option (List ℤ)) (logn : ℕ),
      (Falcon_NTT poly logn).1 ≠ none ↔
        poly = none ∨ (∃ p, poly = some p ∧ p.length ≠ 2 ^ logn) ∨
          (logn ≠ 9 ∧ logn ≠ 10)) ∧
    (∀ (poly : Option (List ℤ)) (logn : ℕ),
      (Falcon_InvNTT poly logn).1 ≠ none ↔
        poly = none ∨ (∃ p, poly = some p ∧ p.length ≠ 2 ^ logn) ∨
          (logn ≠ 9 ∧ logn ≠ 10)) := by
  constructor
  · intro poly logn
    cases poly with
    | none => simp [Falcon_NTT]
    | some p =>
      by_cases h9 : logn = 9
      · subst h9
        have hbm : goExpectedLen 9 = 512 := by decide
        by_cases hlen : p.length = 512
        · have hlenz : (p.length : ℤ) = goExpectedLen 9 := by
            rw [hbm]; exact_mod_cast hlen
          simp [Falcon_NTT, hlenz, hlen, hbm]
        · have hlenz : (p.length : ℤ) ≠ goExpectedLen 9 := by
            rw [hbm]; exact_mod_cast hlen
          simp [Falcon_NTT, hlenz, hlen]
      · by_cases h10 : logn = 10
        · subst h10
          have hbm : goExpectedLen 10 = 1024 := by decide
          by_cases hlen : p.length = 1024
          · have hlenz : (p.length : ℤ) = goExpectedLen 10 := by
              rw [hbm]; exact_mod_cast hlen
            simp [Falcon_NTT, hlenz, hlen, hbm]
          · have hlenz : (p.length : ℤ) ≠ goExpectedLen 10 := by
              rw [hbm]; exact_mod_cast hlen
            simp [Falcon_NTT, hlenz, hlen]
        · refine iff_of_true ?_ (Or.inr (Or.inr ⟨h9, h10⟩))
          by_cases hlen : (p.length : ℤ) = goExpectedLen logn
          · simp [Falcon_NTT, hlen, h9, h10]
          · simp [Falcon_NTT, hlen]
  · intro poly logn
    cases poly with
    | none => simp [Falcon_InvNTT]
    | some p =>
      by_cases h9 : logn = 9
      · subst h9
        have hbm : goExpectedLen 9 = 512 := by decide
        by_cases hlen : p.length = 512
        · have hlenz : (p.length : ℤ) = goExpectedLen 9 := by
            rw [hbm]; exact_mod_cast hlen
          simp [Falcon_InvNTT, hlenz, hlen, hbm]
        · have hlenz : (p.length : ℤ) ≠ goExpectedLen 9 := by
            rw [hbm]; exact_mod_cast hlen
          simp [Falcon_InvNTT, hlenz, hlen]
      · by_cases h10 : logn = 10
        · subst h10
          have hbm : goExpectedLen 10 = 1024 := by decide
          by_cases hlen : p.length = 1024
          · have hlenz : (p.length : ℤ) = goExpectedLen 10 := by
              rw [hbm]; exact_mod_cast hlen
            simp [Falcon_InvNTT, hlenz, hlen, hbm]
          · have hlenz : (p.length : ℤ) ≠ goExpectedLen 10 := by
              rw [hbm]; exact_mod_cast hlen
            simp [Falcon_InvNTT, hlenz, hlen]
        · refine iff_of_true ?_ (Or.inr (Or.inr ⟨h9, h10⟩))
          by_cases hlen : (p.length : ℤ) = goExpectedLen logn
          · simp [Falcon_InvNTT, hlen, h9, h10]
          · simp [Falcon_InvNTT, hlen]

/-- C9: every public Go operation that returns an error leaves the
polynomial buffer completely unchanged — validation happens before any
arithmetic, with no partial-failure state. -/
theorem claim_C9_no_mutation_on_error :
    (∀ (poly : Option (Fin 256 → ℤ)) (level : ℤ),
      (MLDSA_NTT poly level).1 ≠ none → (MLDSA_NTT poly level).2 = poly) ∧
    (∀ (poly : Option (Fin 256 → ℤ)) (level : ℤ),
      (MLDSA_InvNTT_ToMont poly level).1 ≠ none →
        (MLDSA_InvNTT_ToMont poly level).2 = poly) ∧
    (∀ (poly : Option (Fin 256 → ℤ)) (level : ℤ),
      (MLDSA_InvNTT poly level).1 ≠ none → (MLDSA_InvNTT poly level).2 = poly) ∧
    (∀ (poly : Option (List ℤ)) (logn : ℕ),
      (Falcon_NTT poly logn).1 ≠ none → (Falcon_NTT poly logn).2 = poly) ∧
    (∀ (poly : Option (List ℤ)) (logn : ℕ),
      (Falcon_InvNTT poly logn).1 ≠ none → (Falcon_InvNTT poly logn).2 = poly) := by
  refine ⟨?_, ?_, ?_, ?_, ?_⟩
  · intro poly level herr
    cases poly with
    | none => rfl
    | some p =>
      by_cases h0 : level = 0
      · simp [MLDSA_NTT, h0] at herr
      · by_cases h1 : level = 1
        · simp [MLDSA_NTT, h0, h1] at herr
        · by_cases h2 : level = 2
          · simp [MLDSA_NTT, h0, h1, h2] at herr
          · simp [MLDSA_NTT, h0, h1, h2]
  · intro poly level herr
    cases poly with
    | none => rfl
    | some p =>
      by_cases h0 : level = 0
      · simp [MLDSA_InvNTT_ToMont, h0] at herr
      · by_cases h1 : level = 1
        · simp [MLDSA_InvNTT_ToMont, h0, h1] at herr
        · by_cases h2 : level = 2
          · simp [MLDSA_InvNTT_ToMont, h0, h1, h2] at herr
          · simp [MLDSA_InvNTT_ToMont, h0, h1, h2]
  · intro poly level herr
    cases poly with
    | none => rfl
    | some p =>
      by_cases h0 : level = 0
      · simp [MLDSA_InvNTT, h0] at herr
      · by_cases h1 : level = 1
        · simp [MLDSA_InvNTT, h0, h1] at herr
        · by_cases h2 : level = 2
          · simp [MLDSA_InvNTT, h0, h1, h2] at herr
          · simp [MLDSA_InvNTT, h0, h1, h2]
  · intro poly logn herr
    cases poly with
    | none => rfl
    | some p =>
      by_cases hlen : (p.length : ℤ) = goExpectedLen logn
      · by_cases hlogn : logn ≠ 9 ∧ logn ≠ 10
        · simp [Falcon_NTT, hlen, hlogn]
        · simp [Falcon_NTT, hlen, hlogn] at herr
      · simp [Falcon_NTT, hlen]
  · intro poly logn herr
    cases poly with
    | none => rfl
    | some p =>
      by_cases hlen : (p.length : ℤ) = goExpectedLen logn
      · by_cases hlogn : logn ≠ 9 ∧ logn ≠ 10
        · simp [Falcon_InvNTT, hlen, hlogn]
        · simp [Falcon_InvNTT, hlen, hlogn] at herr
      · simp [Falcon_InvNTT, hlen]

/-- C9 witness: the no-mutation theorem applied at concrete erroring
calls — a nil ML-DSA buffer and a wrong-length Falcon slice. -/
theorem claim_C9_no_mutation_on_error_witness :
    ((MLDSA_NTT none 0).1 ≠ none ∧ (MLDSA_NTT none 0).2 = none) ∧
    ((Falcon_NTT (some [0]) 9).1 ≠ none ∧
      (Falcon_NTT (some [0]) 9).2 = some [0]) :=
  ⟨⟨by decide, claim_C9_no_mutation_on_error.1 none 0 (by decide)⟩,
    ⟨by decide, claim_C9_no_mutation_on_error.2.2.2.1 (some [0]) 9 (by decide)⟩⟩

/-- C10 counterexample: the claim's first part — the length-mismatch
error is returned whenever the slice length differs from `2^logn` and
`logn` is unsupported — fails on the program at `logn = 64` with an empty
slice: the length differs from `2^64` and `logn` is unsupported, yet Go's
`1 << 64` wraps to `0`, the real length check passes, and the
invalid-`logn` error is returned instead. -/
theorem claim_C10_counterexample :
    ([] : List ℤ).length ≠ 2 ^ 64 ∧ (64 : ℕ) ≠ 9 ∧ (64 : ℕ) ≠ 10 ∧
    (Falcon_NTT (some ([] : List ℤ)) 64).1 =
      some "invalid logn: must be 9 (Falcon-512) or 10 (Falcon-1024)" ∧
    (Falcon_NTT (some ([] : List ℤ)) 64).1 ≠ some "polynomial length mismatch" ∧
    (Falcon_InvNTT (some ([] : List ℤ)) 64).1 =
      some "invalid logn: must be 9 (Falcon-512) or 10 (Falcon-1024)" ∧
    (Falcon_InvNTT (some ([] : List ℤ)) 64).1 ≠ some "polynomial length mismatch" :=
  ⟨by decide, by decide, by decide, by decide, by decide, by decide, by decide⟩

/-- C10 (amended): the validation checks run in the fixed order nil
pointer, then slice length against `1 << logn`, then membership of `logn`
in `{9, 10}` — with the length comparison taken as the program computes
it, in a wrapping signed 64-bit `int` (`goExpectedLen`).  When that
length check fails and `logn` is unsupported the length-mismatch error is
returned; when it passes (for example `logn = 8` with a 256-element
slice, or `logn ≥ 64` with an empty slice) and `logn` is unsupported the
invalid-`logn` error is returned. -/
theorem claim_C10_validation_order :
    (∀ (p : List ℤ) (logn : ℕ),
      (p.length : ℤ) ≠ goExpectedLen logn → logn ≠ 9 → logn ≠ 10 →
      (Falcon_NTT (some p) logn).1 = some "polynomial length mismatch" ∧
      (Falcon_InvNTT (some p) logn).1 = some "polynomial length mismatch") ∧
    (∀ (p : List ℤ) (logn : ℕ),
      (p.length : ℤ) = goExpectedLen logn → logn ≠ 9 → logn ≠ 10 →
      (Falcon_NTT (some p) logn).1 =
        some "invalid logn: must be 9 (Falcon-512) or 10 (Falcon-1024)" ∧
      (Falcon_InvNTT (some p) logn).1 =
        some "invalid logn: must be 9 (Falcon-512) or 10 (Falcon-1024)") ∧
    (∀ logn : ℕ, (Falcon_NTT none logn).1 = some "nil polynomial" ∧
      (Falcon_InvNTT none logn).1 = some "nil polynomial") := by
  refine ⟨fun p logn hlen h9 h10 => ?_, fun p logn hlen h9 h10 => ?_,
    fun logn => ⟨rfl, rfl⟩⟩
  · exact ⟨by simp [Falcon_NTT, hlen], by simp [Falcon_InvNTT, hlen]⟩
  · exact ⟨by simp [Falcon_NTT, hlen, h9, h10],
      by simp [Falcon_InvNTT, hlen, h9, h10]⟩

/-- C10 witness: the amended order theorem applied at `logn = 8` with a
`100`-element slice (length mismatch wins) and with a `256`-element slice
(length check passes, invalid-`logn` error). -/
theorem claim_C10_validation_order_witness :
    (((List.replicate 100 (0 : ℤ)).length : ℤ) ≠ goExpectedLen 8 ∧
      (Falcon_NTT (some (List.replicate 100 (0 : ℤ))) 8).1 =
        some "polynomial length mismatch") ∧
    (((List.replicate 256 (0 : ℤ)).length : ℤ) = goExpectedLen 8 ∧
      (Falcon_NTT (some (List.replicate 256 (0 : ℤ))) 8).1 =
        some "invalid logn: must be 9 (Falcon-512) or 10 (Falcon-1024)") :=
  ⟨⟨by decide,
    (claim_C10_validation_order.1 (List.replicate 100 (0 : ℤ)) 8
      (by decide) (by decide) (by decide)).1⟩,
  ⟨by decide,
    (claim_C10_validation_order.2.1 (List.replicate 256 (0 : ℤ)) 8
      (by decide) (by decide) (by decide)).1⟩⟩

end NttSpec
